import Mathlib

/-!
Verification of the WER (Word Error Rate) evaluation core of the
call-center-ai-insights repository (`src/wer_evaluation.py`).

The development shallowly embeds:
  * `calcular_distancia_edicion` — the Levenshtein dynamic program (`dp`)
    plus the backtracking classification of edit operations (`backtrack`);
  * `normalizar_texto` — the text normalizer (lowercase, NFD, strip
    combining marks, punctuation to space, whitespace collapse, strip),
    parametric over a model of the Unicode character tables;
  * `calcular_wer` — the per-pair scorer;
  * `calcular_wer_total` — the corpus aggregator.

Python floats are modelled exactly by rationals together with an `inf`
sentinel (`PyFloat`); the only float operations the code performs on
possibly-infinite values are `1 - w` and `max 0 _`, which are modelled
per IEEE semantics (`1 - inf = -inf`, `max 0 (-inf) = 0`).
-/

namespace CallCenterWer

variable {α : Type} [DecidableEq α] [Inhabited α]

/-- Classical unit-cost Levenshtein distance between two token sequences,
    written with the textbook head recursion.  This is the independent
    reference distance against which the repository's dynamic program is
    verified. -/
def levenshtein : List α → List α → Nat
  | [], ys => ys.length
  | _ :: xs, [] => xs.length + 1
  | x :: xs, y :: ys =>
    if x = y then levenshtein xs ys
    else 1 + min (levenshtein xs ys)
      (min (levenshtein (x :: xs) ys) (levenshtein xs (y :: ys)))
termination_by xs ys => xs.length + ys.length
decreasing_by all_goals (simp only [List.length_cons]; omega)

/-- Primitive token-level edit operation of an edit script. -/
inductive EdOp (α : Type) where
  | mtch (a : α)
  | subst (a b : α)
  | del (a : α)
  | ins (b : α)

/-- Cost of a single edit operation: matches are free, everything else
    costs one. -/
def opCost : EdOp α → Nat
  | .mtch _ => 0
  | .subst _ _ => 1
  | .del _ => 1
  | .ins _ => 1

/-- Total cost of an edit script. -/
def scriptCost (t : List (EdOp α)) : Nat := (t.map opCost).sum

/-- `Aligns t xs ys` — the edit script `t` transforms the reference `xs`
    into the hypothesis `ys`. -/
inductive Aligns : List (EdOp α) → List α → List α → Prop where
  | nil : Aligns [] [] []
  | mtch (a : α) {t xs ys} (h : Aligns t xs ys) :
      Aligns (EdOp.mtch a :: t) (a :: xs) (a :: ys)
  | subst (a b : α) {t xs ys} (h : Aligns t xs ys) :
      Aligns (EdOp.subst a b :: t) (a :: xs) (b :: ys)
  | del (a : α) {t xs ys} (h : Aligns t xs ys) :
      Aligns (EdOp.del a :: t) (a :: xs) ys
  | ins (b : α) {t xs ys} (h : Aligns t xs ys) :
      Aligns (EdOp.ins b :: t) xs (b :: ys)

theorem levenshtein_nil_left (ys : List α) : levenshtein ([] : List α) ys = ys.length := by
  simp [levenshtein]

theorem levenshtein_nil_right (xs : List α) : levenshtein xs ([] : List α) = xs.length := by
  cases xs <;> simp [levenshtein]

theorem levenshtein_cons_cons (x y : α) (xs ys : List α) :
    levenshtein (x :: xs) (y :: ys) =
      if x = y then levenshtein xs ys
      else 1 + min (levenshtein xs ys)
        (min (levenshtein (x :: xs) ys) (levenshtein xs (y :: ys))) := by
  simp [levenshtein]

/-- The four one-step stability bounds of the Levenshtein distance:
    consing a token onto either side changes the distance by at most one
    in either direction. -/
theorem levenshtein_cons_bounds :
    ∀ (n : Nat) (xs ys : List α), xs.length + ys.length ≤ n → ∀ (a b : α),
      (levenshtein (a :: xs) ys ≤ 1 + levenshtein xs ys) ∧
      (levenshtein xs (b :: ys) ≤ 1 + levenshtein xs ys) ∧
      (levenshtein xs ys ≤ 1 + levenshtein (a :: xs) ys) ∧
      (levenshtein xs ys ≤ 1 + levenshtein xs (b :: ys)) := by
  intro n
  induction n with
  | zero =>
    intro xs ys hlen a b
    have hx : xs = [] := by cases xs <;> simp_all
    have hy : ys = [] := by cases ys <;> simp_all
    subst hx; subst hy
    refine ⟨?_, ?_, ?_, ?_⟩ <;>
      (simp only [levenshtein_nil_left, levenshtein_nil_right, List.length_cons,
        List.length_nil]; omega)
  | succ n ih =>
    intro xs ys hlen a b
    refine ⟨?_, ?_, ?_, ?_⟩
    · -- levenshtein (a :: xs) ys ≤ 1 + levenshtein xs ys
      cases ys with
      | nil =>
        simp only [levenshtein_nil_right, List.length_cons]; omega
      | cons c cs =>
        have h4 := (ih xs cs (by simp only [List.length_cons] at hlen ⊢; omega) a c).2.2.2
        rw [levenshtein_cons_cons]
        split_ifs <;> omega
    · -- levenshtein xs (b :: ys) ≤ 1 + levenshtein xs ys
      cases xs with
      | nil =>
        simp only [levenshtein_nil_left, List.length_cons]; omega
      | cons c cs =>
        have h3 := (ih cs ys (by simp only [List.length_cons] at hlen ⊢; omega) c b).2.2.1
        rw [levenshtein_cons_cons]
        split_ifs <;> omega
    · -- levenshtein xs ys ≤ 1 + levenshtein (a :: xs) ys
      cases ys with
      | nil =>
        simp only [levenshtein_nil_right, List.length_cons]; omega
      | cons c cs =>
        have h2 := (ih xs cs (by simp only [List.length_cons] at hlen ⊢; omega) a c).2.1
        have h3 := (ih xs cs (by simp only [List.length_cons] at hlen ⊢; omega) a c).2.2.1
        rw [levenshtein_cons_cons]
        split_ifs <;> omega
    · -- levenshtein xs ys ≤ 1 + levenshtein xs (b :: ys)
      cases xs with
      | nil =>
        simp only [levenshtein_nil_left, List.length_cons]; omega
      | cons c cs =>
        have h1 := (ih cs ys (by simp only [List.length_cons] at hlen ⊢; omega) c b).1
        have h4 := (ih cs ys (by simp only [List.length_cons] at hlen ⊢; omega) c b).2.2.2
        rw [levenshtein_cons_cons]
        split_ifs <;> omega

theorem levenshtein_cons_left_le (a : α) (xs ys : List α) :
    levenshtein (a :: xs) ys ≤ 1 + levenshtein xs ys :=
  (levenshtein_cons_bounds (xs.length + ys.length) xs ys le_rfl a a).1

theorem levenshtein_cons_right_le (b : α) (xs ys : List α) :
    levenshtein xs (b :: ys) ≤ 1 + levenshtein xs ys :=
  (levenshtein_cons_bounds (xs.length + ys.length) xs ys le_rfl b b).2.1

/-- The Levenshtein distance is a lower bound on the cost of any edit
    script. -/
theorem levenshtein_le_scriptCost {t : List (EdOp α)} {xs ys : List α}
    (h : Aligns t xs ys) : levenshtein xs ys ≤ scriptCost t := by
  induction h with
  | nil => simp [levenshtein_nil_left, scriptCost]
  | mtch a h ih =>
    rw [levenshtein_cons_cons, if_pos rfl]
    simp only [scriptCost, List.map_cons, List.sum_cons, opCost] at ih ⊢
    omega
  | subst a b h ih =>
    rw [levenshtein_cons_cons]
    simp only [scriptCost, List.map_cons, List.sum_cons, opCost] at ih ⊢
    split_ifs <;> omega
  | del a h ih =>
    rename_i t1 xs1 ys1
    have hb := levenshtein_cons_left_le a xs1 ys1
    simp only [scriptCost, List.map_cons, List.sum_cons, opCost] at ih ⊢
    omega
  | ins b h ih =>
    rename_i t1 xs1 ys1
    have hb := levenshtein_cons_right_le b xs1 ys1
    simp only [scriptCost, List.map_cons, List.sum_cons, opCost] at ih ⊢
    omega

theorem aligns_ins_all (ys : List α) : Aligns (ys.map EdOp.ins) ([] : List α) ys := by
  induction ys with
  | nil => exact .nil
  | cons y ys ih => exact .ins y ih

theorem aligns_del_all (xs : List α) : Aligns (xs.map EdOp.del) xs ([] : List α) := by
  induction xs with
  | nil => exact .nil
  | cons x xs ih => exact .del x ih

theorem scriptCost_map_ins (ys : List α) : scriptCost (ys.map EdOp.ins) = ys.length := by
  induction ys with
  | nil => simp [scriptCost]
  | cons y ys ih =>
    simp only [scriptCost, List.map_cons, List.sum_cons, opCost, List.length_cons] at ih ⊢
    omega

theorem scriptCost_map_del (xs : List α) : scriptCost (xs.map EdOp.del) = xs.length := by
  induction xs with
  | nil => simp [scriptCost]
  | cons x xs ih =>
    simp only [scriptCost, List.map_cons, List.sum_cons, opCost, List.length_cons] at ih ⊢
    omega

/-- An edit script of cost exactly the Levenshtein distance exists, so the
    distance really is the minimum script cost. -/
theorem exists_script :
    ∀ (n : Nat) (xs ys : List α), xs.length + ys.length ≤ n →
      ∃ t, Aligns t xs ys ∧ scriptCost t = levenshtein xs ys := by
  intro n
  induction n with
  | zero =>
    intro xs ys hlen
    have hx : xs = [] := by cases xs <;> simp_all
    have hy : ys = [] := by cases ys <;> simp_all
    subst hx; subst hy
    exact ⟨[], .nil, by simp [scriptCost, levenshtein_nil_left]⟩
  | succ n ih =>
    intro xs ys hlen
    cases xs with
    | nil =>
      exact ⟨ys.map EdOp.ins, aligns_ins_all ys, by
        rw [scriptCost_map_ins, levenshtein_nil_left]⟩
    | cons x xs =>
      cases ys with
      | nil =>
        exact ⟨(x :: xs).map EdOp.del, aligns_del_all _, by
          rw [scriptCost_map_del, levenshtein_nil_right]⟩
      | cons y ys =>
        rw [levenshtein_cons_cons]
        by_cases hxy : x = y
        · subst hxy
          obtain ⟨t, ht, hc⟩ := ih xs ys (by simp only [List.length_cons] at hlen ⊢; omega)
          refine ⟨EdOp.mtch x :: t, .mtch x ht, ?_⟩
          rw [if_pos rfl]
          simp only [scriptCost, List.map_cons, List.sum_cons, opCost] at hc ⊢
          omega
        · rw [if_neg hxy]
          have hmin : min (levenshtein xs ys)
              (min (levenshtein (x :: xs) ys) (levenshtein xs (y :: ys)))
                = levenshtein xs ys ∨
              min (levenshtein xs ys)
              (min (levenshtein (x :: xs) ys) (levenshtein xs (y :: ys)))
                = levenshtein (x :: xs) ys ∨
              min (levenshtein xs ys)
              (min (levenshtein (x :: xs) ys) (levenshtein xs (y :: ys)))
                = levenshtein xs (y :: ys) := by omega
          rcases hmin with hm | hm | hm
          · obtain ⟨t, ht, hc⟩ := ih xs ys (by simp only [List.length_cons] at hlen ⊢; omega)
            refine ⟨EdOp.subst x y :: t, .subst x y ht, ?_⟩
            simp only [scriptCost, List.map_cons, List.sum_cons, opCost] at hc ⊢
            omega
          · obtain ⟨t, ht, hc⟩ :=
              ih (x :: xs) ys (by simp only [List.length_cons] at hlen ⊢; omega)
            refine ⟨EdOp.ins y :: t, .ins y ht, ?_⟩
            simp only [scriptCost, List.map_cons, List.sum_cons, opCost] at hc ⊢
            omega
          · obtain ⟨t, ht, hc⟩ :=
              ih xs (y :: ys) (by simp only [List.length_cons] at hlen ⊢; omega)
            refine ⟨EdOp.del x :: t, .del x ht, ?_⟩
            simp only [scriptCost, List.map_cons, List.sum_cons, opCost] at hc ⊢
            omega

theorem aligns_append {t1 t2 : List (EdOp α)} {x1 y1 x2 y2 : List α}
    (h1 : Aligns t1 x1 y1) (h2 : Aligns t2 x2 y2) :
    Aligns (t1 ++ t2) (x1 ++ x2) (y1 ++ y2) := by
  induction h1 with
  | nil => simpa using h2
  | mtch a h ih => exact .mtch a ih
  | subst a b h ih => exact .subst a b ih
  | del a h ih => exact .del a ih
  | ins b h ih => exact .ins b ih

theorem aligns_reverse {t : List (EdOp α)} {xs ys : List α}
    (h : Aligns t xs ys) : Aligns t.reverse xs.reverse ys.reverse := by
  induction h with
  | nil => exact .nil
  | mtch a h ih =>
    simpa [List.reverse_cons] using
      aligns_append ih (.mtch a .nil)
  | subst a b h ih =>
    simpa [List.reverse_cons] using
      aligns_append ih (.subst a b .nil)
  | del a h ih =>
    simpa [List.reverse_cons] using
      aligns_append ih (Aligns.del a Aligns.nil)
  | ins b h ih =>
    simpa [List.reverse_cons] using
      aligns_append ih (Aligns.ins b Aligns.nil)

theorem scriptCost_reverse (t : List (EdOp α)) : scriptCost t.reverse = scriptCost t := by
  simp only [scriptCost, List.map_reverse]
  exact List.sum_reverse _

/-- The Levenshtein distance is invariant under reversing both sequences. -/
theorem levenshtein_reverse (xs ys : List α) :
    levenshtein xs.reverse ys.reverse = levenshtein xs ys := by
  have dir : ∀ us vs : List α,
      levenshtein us.reverse vs.reverse ≤ levenshtein us vs := by
    intro us vs
    obtain ⟨t, ht, hc⟩ := exists_script (us.length + vs.length) us vs le_rfl
    have := levenshtein_le_scriptCost (aligns_reverse ht)
    rw [scriptCost_reverse, hc] at this
    exact this
  have h1 := dir xs ys
  have h2 := dir xs.reverse ys.reverse
  simp only [List.reverse_reverse] at h2
  omega

/-- The dynamic-programming table of `calcular_distancia_edicion`
    (`wer_evaluation.py`, lines 55-74): `dp ref hyp i j` is the cell
    `dp[i][j]` of the `(n+1) x (m+1)` numpy matrix.  Base row and column
    are `dp[i][0] = i`, `dp[0][j] = j`; the recurrence compares
    `ref_words[i-1]` with `hyp_words[j-1]` and otherwise takes
    `1 + min(dp[i-1][j], dp[i][j-1], dp[i-1][j-1])`. -/
def dp (ref hyp : List α) : Nat → Nat → Nat
  | i, 0 => i
  | 0, j + 1 => j + 1
  | i + 1, j + 1 =>
    if ref.getD i default = hyp.getD j default then dp ref hyp i j
    else 1 + min (dp ref hyp i (j + 1)) (min (dp ref hyp (i + 1) j) (dp ref hyp i j))
termination_by i j => i + j
decreasing_by all_goals omega

theorem dp_zero_right (ref hyp : List α) (i : Nat) : dp ref hyp i 0 = i := by
  simp [dp]

theorem dp_zero_left (ref hyp : List α) (j : Nat) : dp ref hyp 0 j = j := by
  cases j with
  | zero => simp [dp]
  | succ j => simp [dp]

theorem dp_succ_succ (ref hyp : List α) (i j : Nat) :
    dp ref hyp (i + 1) (j + 1) =
      if ref.getD i default = hyp.getD j default then dp ref hyp i j
      else 1 + min (dp ref hyp i (j + 1))
        (min (dp ref hyp (i + 1) j) (dp ref hyp i j)) := by
  simp [dp]

/-- Operation counts accumulated by the backtracking loop of
    `calcular_distancia_edicion`, together with a flag recording whether
    the final `else: break` fallback of the loop was taken. -/
structure EdCounts where
  sustituciones : Nat
  eliminaciones : Nat
  inserciones : Nat
  broke : Bool
deriving DecidableEq, Repr

/-- The backtracking loop of `calcular_distancia_edicion`
    (`wer_evaluation.py`, lines 76-97).  Starting from `(i, j)` it walks
    the table towards `(0, 0)`: match when the tokens agree, otherwise
    substitution, deletion, insertion — each guarded by the corresponding
    table test — and sets `broke` if no branch applies (the `break`). -/
def backtrack (ref hyp : List α) : Nat → Nat → EdCounts
  | i, j =>
    if i = 0 ∧ j = 0 then ⟨0, 0, 0, false⟩
    else if h1 : 0 < i ∧ 0 < j ∧ ref.getD (i - 1) default = hyp.getD (j - 1) default then
      backtrack ref hyp (i - 1) (j - 1)
    else if h2 : 0 < i ∧ 0 < j ∧ dp ref hyp i j = dp ref hyp (i - 1) (j - 1) + 1 then
      let r := backtrack ref hyp (i - 1) (j - 1)
      ⟨r.sustituciones + 1, r.eliminaciones, r.inserciones, r.broke⟩
    else if h3 : 0 < i ∧ dp ref hyp i j = dp ref hyp (i - 1) j + 1 then
      let r := backtrack ref hyp (i - 1) j
      ⟨r.sustituciones, r.eliminaciones + 1, r.inserciones, r.broke⟩
    else if h4 : 0 < j ∧ dp ref hyp i j = dp ref hyp i (j - 1) + 1 then
      let r := backtrack ref hyp i (j - 1)
      ⟨r.sustituciones, r.eliminaciones, r.inserciones + 1, r.broke⟩
    else ⟨0, 0, 0, true⟩
termination_by i j => i + j
decreasing_by all_goals omega

/-- `calcular_distancia_edicion` (`wer_evaluation.py`, lines 44-98):
    builds the table and backtracks from `(n, m)`.  The returned numpy
    matrix is the function `dp` itself and is not repeated here. -/
def calcular_distancia_edicion (ref_words hyp_words : List α) : EdCounts :=
  backtrack ref_words hyp_words ref_words.length hyp_words.length

theorem backtrack_zero_zero (ref hyp : List α) :
    backtrack ref hyp 0 0 = ⟨0, 0, 0, false⟩ := by
  rw [backtrack]
  simp

/-- Invariant of the backtracking loop: it never hits the `break`
    fallback, the operation counts sum to the table value at the starting
    cell, and the deletion/insertion imbalance equals `i - j`. -/
theorem backtrack_invariant (ref hyp : List α) :
    ∀ (n i j : Nat), i + j ≤ n →
      (backtrack ref hyp i j).broke = false ∧
      (backtrack ref hyp i j).sustituciones + (backtrack ref hyp i j).eliminaciones +
        (backtrack ref hyp i j).inserciones = dp ref hyp i j ∧
      ((backtrack ref hyp i j).eliminaciones : Int) -
        ((backtrack ref hyp i j).inserciones : Int) = (i : Int) - (j : Int) := by
  intro n
  induction n with
  | zero =>
    intro i j hij
    have hi : i = 0 := by omega
    have hj : j = 0 := by omega
    subst hi; subst hj
    simp [backtrack_zero_zero, dp_zero_right]
  | succ n ih =>
    intro i j hij
    by_cases h0 : i = 0 ∧ j = 0
    · obtain ⟨rfl, rfl⟩ := h0
      simp [backtrack_zero_zero, dp_zero_right]
    · rw [backtrack]
      rw [if_neg h0]
      by_cases h1 : 0 < i ∧ 0 < j ∧ ref.getD (i - 1) default = hyp.getD (j - 1) default
      · rw [dif_pos h1]
        obtain ⟨hi, hj, heq⟩ := h1
        obtain ⟨i, rfl⟩ : ∃ k, i = k + 1 := ⟨i - 1, by omega⟩
        obtain ⟨j, rfl⟩ : ∃ k, j = k + 1 := ⟨j - 1, by omega⟩
        simp only [Nat.add_sub_cancel] at heq ⊢
        have hrec := ih i j (by omega)
        rw [dp_succ_succ, if_pos heq]
        refine ⟨hrec.1, hrec.2.1, ?_⟩
        have := hrec.2.2
        push_cast at this ⊢
        omega
      · rw [dif_neg h1]
        by_cases h2 : 0 < i ∧ 0 < j ∧ dp ref hyp i j = dp ref hyp (i - 1) (j - 1) + 1
        · rw [dif_pos h2]
          obtain ⟨hi, hj, heq⟩ := h2
          obtain ⟨i, rfl⟩ : ∃ k, i = k + 1 := ⟨i - 1, by omega⟩
          obtain ⟨j, rfl⟩ : ∃ k, j = k + 1 := ⟨j - 1, by omega⟩
          simp only [Nat.add_sub_cancel] at heq ⊢
          have hrec := ih i j (by omega)
          refine ⟨hrec.1, ?_, ?_⟩
          · simp only [heq]
            omega
          · have := hrec.2.2
            push_cast at this ⊢
            omega
        · rw [dif_neg h2]
          by_cases h3 : 0 < i ∧ dp ref hyp i j = dp ref hyp (i - 1) j + 1
          · rw [dif_pos h3]
            obtain ⟨hi, heq⟩ := h3
            obtain ⟨i, rfl⟩ : ∃ k, i = k + 1 := ⟨i - 1, by omega⟩
            simp only [Nat.add_sub_cancel] at heq ⊢
            have hrec := ih i j (by omega)
            refine ⟨hrec.1, ?_, ?_⟩
            · simp only [heq]
              omega
            · have := hrec.2.2
              push_cast at this ⊢
              omega
          · by_cases h4 : 0 < j ∧ dp ref hyp i j = dp ref hyp i (j - 1) + 1
            · rw [dif_neg h3, dif_pos h4]
              obtain ⟨hj, heq⟩ := h4
              obtain ⟨j, rfl⟩ : ∃ k, j = k + 1 := ⟨j - 1, by omega⟩
              simp only [Nat.add_sub_cancel] at heq ⊢
              have hrec := ih i j (by omega)
              refine ⟨hrec.1, ?_, ?_⟩
              · simp only [heq]
                omega
              · have := hrec.2.2
                push_cast at this ⊢
                omega
            · -- the fallback is unreachable: one of the four guards must hold
              exfalso
              by_cases hi : 0 < i
              · by_cases hj : 0 < j
                · obtain ⟨i, rfl⟩ : ∃ k, i = k + 1 := ⟨i - 1, by omega⟩
                  obtain ⟨j, rfl⟩ : ∃ k, j = k + 1 := ⟨j - 1, by omega⟩
                  have hne : ¬ ref.getD i default = hyp.getD j default := by
                    intro hc
                    exact h1 ⟨by omega, by omega, by simpa using hc⟩
                  have hrec := dp_succ_succ ref hyp i j
                  rw [if_neg hne] at hrec
                  simp only [Nat.add_sub_cancel] at h2 h3 h4
                  have hn2 : ¬ dp ref hyp (i + 1) (j + 1) = dp ref hyp i j + 1 := by
                    intro hc
                    exact h2 ⟨by omega, by omega, hc⟩
                  have hn3 : ¬ dp ref hyp (i + 1) (j + 1) = dp ref hyp i (j + 1) + 1 := by
                    intro hc
                    exact h3 ⟨by omega, hc⟩
                  have hn4 : ¬ dp ref hyp (i + 1) (j + 1) = dp ref hyp (i + 1) j + 1 := by
                    intro hc
                    exact h4 ⟨by omega, hc⟩
                  omega
                · obtain ⟨i, rfl⟩ : ∃ k, i = k + 1 := ⟨i - 1, by omega⟩
                  have hj0 : j = 0 := by omega
                  subst hj0
                  have hv : dp ref hyp (i + 1) 0 = dp ref hyp i 0 + 1 := by
                    rw [dp_zero_right, dp_zero_right]
                  exact h3 ⟨by omega, by simpa using hv⟩
              · have hi0 : i = 0 := by omega
                subst hi0
                have hj : 0 < j := by omega
                obtain ⟨j, rfl⟩ : ∃ k, j = k + 1 := ⟨j - 1, by omega⟩
                have hv : dp ref hyp 0 (j + 1) = dp ref hyp 0 j + 1 := by
                  rw [dp_zero_left, dp_zero_left]
                exact h4 ⟨by omega, by simpa using hv⟩

/-- Helper: reversing `take (i+1)` exposes the `i`-th element in front. -/
theorem reverse_take_succ (l : List α) (i : Nat) (h : i < l.length) :
    (l.take (i + 1)).reverse = l.getD i default :: (l.take i).reverse := by
  have h1 : l.take (i + 1) = l.take i ++ [l[i]] := by
    rw [List.take_succ, List.getElem?_eq_getElem h]
    rfl
  have h2 : l.getD i default = l[i] := List.getD_eq_getElem l default h
  rw [h1, h2, List.reverse_append]
  simp

/-- The table cell `dp[i][j]` is the Levenshtein distance between the
    reversed length-`i` prefix of the reference and the reversed
    length-`j` prefix of the hypothesis. -/
theorem dp_eq_levenshtein_take (ref hyp : List α) :
    ∀ (n i j : Nat), i + j ≤ n → i ≤ ref.length → j ≤ hyp.length →
      dp ref hyp i j = levenshtein (ref.take i).reverse (hyp.take j).reverse := by
  intro n
  induction n with
  | zero =>
    intro i j hij hi hj
    have h1 : i = 0 := by omega
    have h2 : j = 0 := by omega
    subst h1; subst h2
    simp [dp_zero_right, levenshtein_nil_left]
  | succ n ih =>
    intro i j hij hi hj
    match i, j with
    | i, 0 =>
      rw [dp_zero_right]
      rw [List.take_zero, List.reverse_nil, levenshtein_nil_right]
      simp
      omega
    | 0, j + 1 =>
      rw [dp_zero_left]
      rw [List.take_zero, List.reverse_nil, levenshtein_nil_left]
      simp
      omega
    | i + 1, j + 1 =>
      have hi1 : i < ref.length := by omega
      have hj1 : j < hyp.length := by omega
      rw [reverse_take_succ ref i hi1, reverse_take_succ hyp j hj1]
      rw [dp_succ_succ, levenshtein_cons_cons]
      have e1 := ih i j (by omega) (by omega) (by omega)
      have e2 := ih i (j + 1) (by omega) (by omega) (by omega)
      have e3 := ih (i + 1) j (by omega) (by omega) (by omega)
      rw [reverse_take_succ hyp j hj1] at e2
      rw [reverse_take_succ ref i hi1] at e3
      by_cases hc : ref.getD i default = hyp.getD j default
      · rw [if_pos hc, if_pos hc, e1]
      · rw [if_neg hc, if_neg hc]
        omega

/-- The bottom-right table cell is the Levenshtein distance between the
    full sequences. -/
theorem dp_eq_levenshtein (ref hyp : List α) :
    dp ref hyp ref.length hyp.length = levenshtein ref hyp := by
  have h := dp_eq_levenshtein_take ref hyp (ref.length + hyp.length)
    ref.length hyp.length le_rfl le_rfl le_rfl
  rw [List.take_length, List.take_length] at h
  rw [h, levenshtein_reverse]

/-- One move of the backtracking walk, as named by the spec (§4.2). -/
inductive BMove where
  | mtch
  | subst
  | del
  | ins
deriving DecidableEq, Repr

/-- Modelled from the spec, §4.2 backtrack policy, as the comparison
    definition for the refinement claim about the fixed priority order:
    at a cell `(i, j)` prefer a match when the tokens are equal;
    otherwise, in this fixed priority order, take substitution if
    `table[i][j] == table[i-1][j-1] + 1`, else deletion (along the
    reference) if `table[i][j] == table[i-1][j] + 1`, else insertion
    (along the hypothesis) if `table[i][j] == table[i][j-1] + 1`. -/
def specBacktrackMove (ref hyp : List α) (i j : Nat) : Option BMove :=
  if 0 < i ∧ 0 < j ∧ ref.getD (i - 1) default = hyp.getD (j - 1) default then
    some BMove.mtch
  else if 0 < i ∧ 0 < j ∧ dp ref hyp i j = dp ref hyp (i - 1) (j - 1) + 1 then
    some BMove.subst
  else if 0 < i ∧ dp ref hyp i j = dp ref hyp (i - 1) j + 1 then
    some BMove.del
  else if 0 < j ∧ dp ref hyp i j = dp ref hyp i (j - 1) + 1 then
    some BMove.ins
  else none

/-- Cell reached after performing a move at `(i, j)`:  match and
    substitution decrement both indices, deletion moves along the
    reference, insertion along the hypothesis. -/
def movePrev : BMove → Nat × Nat → Nat × Nat
  | .mtch, (i, j) => (i - 1, j - 1)
  | .subst, (i, j) => (i - 1, j - 1)
  | .del, (i, j) => (i - 1, j)
  | .ins, (i, j) => (i, j - 1)

/-- The walk prescribed by the spec's §4.2 backtrack policy: from
    `(i, j)` down to `(0, 0)`, emitting at every cell the move chosen by
    `specBacktrackMove`. -/
inductive SpecPath (ref hyp : List α) : Nat → Nat → List BMove → Prop where
  | done : SpecPath ref hyp 0 0 []
  | step {i j : Nat} {m : BMove} {p : List BMove}
      (hne : ¬(i = 0 ∧ j = 0))
      (hm : specBacktrackMove ref hyp i j = some m)
      (hrec : SpecPath ref hyp (movePrev m (i, j)).1 (movePrev m (i, j)).2 p) :
      SpecPath ref hyp i j (m :: p)

/-- The spec walk is deterministic: at most one move list exists from any
    cell. -/
theorem specPath_unique (ref hyp : List α) :
    ∀ {i j : Nat} {p q : List BMove},
      SpecPath ref hyp i j p → SpecPath ref hyp i j q → p = q := by
  intro i j p q hp hq
  induction hp generalizing q with
  | done =>
    cases hq with
    | done => rfl
    | step hne hm hrec => exact absurd ⟨rfl, rfl⟩ hne
  | step hne hm hrec ih =>
    cases hq with
    | done => exact absurd ⟨rfl, rfl⟩ hne
    | step hne2 hm2 hrec2 =>
      rw [hm] at hm2
      have hmm := Option.some.inj hm2
      subst hmm
      rw [ih hrec2]

/-- The code's backtracking loop performs exactly the walk prescribed by
    the spec's priority policy, and its counts are the move counts of
    that walk. -/
theorem backtrack_follows_specPath (ref hyp : List α) :
    ∀ (n i j : Nat), i + j ≤ n →
      ∃ p, SpecPath ref hyp i j p ∧
        backtrack ref hyp i j =
          ⟨p.count BMove.subst, p.count BMove.del, p.count BMove.ins, false⟩ := by
  intro n
  induction n with
  | zero =>
    intro i j hij
    have hi : i = 0 := by omega
    have hj : j = 0 := by omega
    subst hi; subst hj
    exact ⟨[], .done, by rw [backtrack_zero_zero]; simp⟩
  | succ n ih =>
    intro i j hij
    by_cases h0 : i = 0 ∧ j = 0
    · obtain ⟨rfl, rfl⟩ := h0
      exact ⟨[], .done, by rw [backtrack_zero_zero]; simp⟩
    · rw [backtrack, if_neg h0]
      by_cases h1 : 0 < i ∧ 0 < j ∧ ref.getD (i - 1) default = hyp.getD (j - 1) default
      · rw [dif_pos h1]
        obtain ⟨p, hp, hb⟩ := ih (i - 1) (j - 1) (by omega)
        refine ⟨BMove.mtch :: p, ?_, ?_⟩
        · exact .step h0 (by unfold specBacktrackMove; rw [if_pos h1]) (by simpa [movePrev] using hp)
        · rw [hb]
          simp [List.count_cons]
      · rw [dif_neg h1]
        by_cases h2 : 0 < i ∧ 0 < j ∧ dp ref hyp i j = dp ref hyp (i - 1) (j - 1) + 1
        · rw [dif_pos h2]
          obtain ⟨p, hp, hb⟩ := ih (i - 1) (j - 1) (by omega)
          refine ⟨BMove.subst :: p, ?_, ?_⟩
          · exact .step h0 (by unfold specBacktrackMove; rw [if_neg h1, if_pos h2])
              (by simpa [movePrev] using hp)
          · rw [hb]
            simp [List.count_cons]
        · rw [dif_neg h2]
          by_cases h3 : 0 < i ∧ dp ref hyp i j = dp ref hyp (i - 1) j + 1
          · rw [dif_pos h3]
            obtain ⟨p, hp, hb⟩ := ih (i - 1) j (by omega)
            refine ⟨BMove.del :: p, ?_, ?_⟩
            · exact .step h0 (by unfold specBacktrackMove; rw [if_neg h1, if_neg h2, if_pos h3])
                (by simpa [movePrev] using hp)
            · rw [hb]
              simp [List.count_cons]
          · rw [dif_neg h3]
            by_cases h4 : 0 < j ∧ dp ref hyp i j = dp ref hyp i (j - 1) + 1
            · rw [dif_pos h4]
              obtain ⟨p, hp, hb⟩ := ih i (j - 1) (by omega)
              refine ⟨BMove.ins :: p, ?_, ?_⟩
              · exact .step h0
                  (by unfold specBacktrackMove; rw [if_neg h1, if_neg h2, if_neg h3, if_pos h4])
                  (by simpa [movePrev] using hp)
              · rw [hb]
                simp [List.count_cons]
            · exfalso
              have hinv := (backtrack_invariant ref hyp (i + j) i j le_rfl).1
              rw [backtrack, if_neg h0, dif_neg h1, dif_neg h2, dif_neg h3, dif_neg h4] at hinv
              simp at hinv

/-- Model of the Unicode character tables consulted by
    `normalizar_texto`: the per-character lowercase mapping of
    `str.lower` (possibly one-to-many), the per-character full canonical
    decomposition of `unicodedata.normalize('NFD', _)`, the category test
    `category(c) == 'Mn'`, and the regex character classes `\w` and `\s`
    (the latter also used for `str.split()` / `str.strip()`). -/
structure UnicodeModel where
  lowerChar : Char → List Char
  nfdChar : Char → List Char
  isMn : Char → Bool
  isWord : Char → Bool
  isSpace : Char → Bool

/-- Concatenated per-character expansion (used for `str.lower` and for
    NFD decomposition).  Canonical reordering of combining marks is not
    modelled: it permutes only marks of nonzero combining class, which
    are exactly the `Mn` characters that the next pipeline stage
    removes. -/
def strExpand (f : Char → List Char) : List Char → List Char
  | [] => []
  | c :: cs => f c ++ strExpand f cs

/-- `re.sub(r'\s+', ' ', texto)`: every maximal nonempty run of
    whitespace characters becomes a single space. -/
def collapseSpaces (isSp : Char → Bool) : List Char → List Char
  | [] => []
  | c :: cs =>
    if isSp c then
      match cs with
      | [] => [' ']
      | d :: _ => if isSp d then collapseSpaces isSp cs else ' ' :: collapseSpaces isSp cs
    else c :: collapseSpaces isSp cs

/-- `texto.strip()`: remove leading and trailing whitespace. -/
def stripEnds (isSp : Char → Bool) (s : List Char) : List Char :=
  ((s.dropWhile isSp).reverse.dropWhile isSp).reverse

/-- `normalizar_texto` (`wer_evaluation.py`, lines 24-42): lowercase, NFD
    decomposition, removal of combining marks (category `Mn`),
    replacement of every character that is neither `\w` nor `\s` by a
    space, collapse of whitespace runs, and strip. -/
def normalizar_texto (U : UnicodeModel) (texto : List Char) : List Char :=
  let t1 := strExpand U.lowerChar texto
  let t2 := strExpand U.nfdChar t1
  let t3 := t2.filter (fun c => !U.isMn c)
  let t4 := t3.map (fun c => if U.isWord c || U.isSpace c then c else ' ')
  let t5 := collapseSpaces U.isSpace t4
  stripEnds U.isSpace t5

/-- Accumulator pass of `str.split()`: `acc` holds the reversed current
    word. -/
def splitWordsAux (isSp : Char → Bool) : List Char → List Char → List (List Char)
  | [], acc => if acc = [] then [] else [acc.reverse]
  | c :: cs, acc =>
    if isSp c then
      if acc = [] then splitWordsAux isSp cs []
      else acc.reverse :: splitWordsAux isSp cs []
    else splitWordsAux isSp cs (c :: acc)

/-- `texto.split()`: maximal nonempty runs of non-whitespace characters,
    in order. -/
def splitWords (isSp : Char → Bool) (s : List Char) : List (List Char) :=
  splitWordsAux isSp s []

/-- Exact model of the Python float values produced by the scorer: every
    value the code computes is either an exact rational or `float('inf')`. -/
inductive PyFloat where
  | finite (q : ℚ)
  | inf
deriving DecidableEq, Repr

/-- `max(0, 1 - w)` on a possibly-infinite float, per IEEE semantics:
    `1 - inf = -inf` and `max(0, -inf) = 0`. -/
def pyAccuracyOf : PyFloat → ℚ
  | .finite q => max 0 (1 - q)
  | .inf => 0

/-- `0 <= w` on a possibly-infinite float. -/
def PyFloat.NonNeg : PyFloat → Prop
  | .finite q => 0 ≤ q
  | .inf => True

/-- The metrics dictionary returned by `calcular_wer`. -/
structure WerResult where
  wer : PyFloat
  accuracy : ℚ
  sustituciones : Nat
  eliminaciones : Nat
  inserciones : Nat
  total_errores : Nat
  palabras_referencia : Nat
  palabras_hipotesis : Nat
deriving DecidableEq, Repr

/-- `calcular_wer` (`wer_evaluation.py`, lines 100-138): normalize both
    transcripts, split into words, run the alignment, and derive WER and
    accuracy; if the reference is empty the WER is `inf` when the
    hypothesis is non-empty and `0.0` otherwise, with accuracy `0.0`. -/
def calcular_wer (U : UnicodeModel) (referencia hipotesis : List Char) : WerResult :=
  let ref_normalizada := normalizar_texto U referencia
  let hyp_normalizada := normalizar_texto U hipotesis
  let ref_words := splitWords U.isSpace ref_normalizada
  let hyp_words := splitWords U.isSpace hyp_normalizada
  let r := calcular_distancia_edicion ref_words hyp_words
  let errs := r.sustituciones + r.eliminaciones + r.inserciones
  let N := ref_words.length
  if N = 0 then
    { wer := if 0 < hyp_words.length then PyFloat.inf else PyFloat.finite 0
      accuracy := 0
      sustituciones := r.sustituciones
      eliminaciones := r.eliminaciones
      inserciones := r.inserciones
      total_errores := errs
      palabras_referencia := N
      palabras_hipotesis := hyp_words.length }
  else
    { wer := PyFloat.finite ((errs : ℚ) / (N : ℚ))
      accuracy := max 0 (1 - (errs : ℚ) / (N : ℚ))
      sustituciones := r.sustituciones
      eliminaciones := r.eliminaciones
      inserciones := r.inserciones
      total_errores := errs
      palabras_referencia := N
      palabras_hipotesis := hyp_words.length }

/-- `np.mean` over the per-pair WER floats: infinite as soon as one value
    is infinite, otherwise the exact arithmetic mean. -/
def pyMeanWer (l : List PyFloat) : PyFloat :=
  if l.any (fun w => match w with | .inf => true | .finite _ => false) then .inf
  else .finite ((l.map (fun w => match w with | .finite q => q | .inf => 0)).sum / (l.length : ℚ))

/-- The aggregate dictionary returned by `calcular_wer_total`. -/
structure AggResult where
  wer_promedio : PyFloat
  wer_total : PyFloat
  accuracy_promedio : ℚ
  accuracy_total : ℚ
  total_sustituciones : Nat
  total_eliminaciones : Nat
  total_inserciones : Nat
  total_errores : Nat
  total_palabras_referencia : Nat
  num_transcripciones : Nat
  resultados_individuales : List WerResult
deriving DecidableEq, Repr

/-- Observable outcome of one `calcular_wer_total` run: the printed
    length-mismatch warning (with both original list lengths), and either
    the aggregate dictionary or `none` for the "no valid transcriptions"
    error return (`{}`). -/
structure AggOutput where
  advertencia : Option (Nat × Nat)
  resultado : Option AggResult
deriving DecidableEq, Repr

/-- `calcular_wer_total` (`wer_evaluation.py`, lines 165-226) from the
    point where both transcription lists have been extracted: truncate to
    the shorter length on mismatch (with a warning), error out on an
    empty list, otherwise score every pair, accumulate `S/D/I/N` totals,
    and derive micro and macro statistics.  The file-reading layer
    (`extraer_transcripciones`) is I/O and is modelled by passing the two
    extracted lists directly. -/
def calcular_wer_total (U : UnicodeModel)
    (transcripciones_manual transcripciones_openai : List (List Char)) : AggOutput :=
  let advertencia :=
    if transcripciones_manual.length ≠ transcripciones_openai.length then
      some (transcripciones_manual.length, transcripciones_openai.length)
    else none
  let min_len := min transcripciones_manual.length transcripciones_openai.length
  let manual :=
    if transcripciones_manual.length ≠ transcripciones_openai.length then
      transcripciones_manual.take min_len
    else transcripciones_manual
  let openai :=
    if transcripciones_manual.length ≠ transcripciones_openai.length then
      transcripciones_openai.take min_len
    else transcripciones_openai
  if manual = [] then { advertencia := advertencia, resultado := none }
  else
    let resultados_individuales := (manual.zip openai).map (fun p => calcular_wer U p.1 p.2)
    let S_total := (resultados_individuales.map (fun r => r.sustituciones)).sum
    let D_total := (resultados_individuales.map (fun r => r.eliminaciones)).sum
    let I_total := (resultados_individuales.map (fun r => r.inserciones)).sum
    let N_total := (resultados_individuales.map (fun r => r.palabras_referencia)).sum
    let wer_promedio := pyMeanWer (resultados_individuales.map (fun r => r.wer))
    let wer_total :=
      if 0 < N_total then PyFloat.finite (((S_total + D_total + I_total : Nat) : ℚ) / (N_total : ℚ))
      else PyFloat.inf
    let accuracy_promedio :=
      (resultados_individuales.map (fun r => r.accuracy)).sum / (resultados_individuales.length : ℚ)
    let accuracy_total := pyAccuracyOf wer_total
    { advertencia := advertencia
      resultado := some
        { wer_promedio := wer_promedio
          wer_total := wer_total
          accuracy_promedio := accuracy_promedio
          accuracy_total := accuracy_total
          total_sustituciones := S_total
          total_eliminaciones := D_total
          total_inserciones := I_total
          total_errores := S_total + D_total + I_total
          total_palabras_referencia := N_total
          num_transcripciones := resultados_individuales.length
          resultados_individuales := resultados_individuales } }

/-- Number of pairs actually processed by one aggregator run. -/
def procesados (o : AggOutput) : Nat :=
  match o.resultado with
  | some r => r.num_transcripciones
  | none => 0

/-- Concrete instantiation of the Unicode tables used by the witnesses:
    identity case folding and decomposition, no combining marks,
    ASCII-alphanumeric word characters, and the single space character as
    whitespace. -/
def plainModel : UnicodeModel where
  lowerChar := fun c => [c]
  nfdChar := fun c => [c]
  isMn := fun _ => false
  isWord := fun c => c.isAlphanum || c == '_'
  isSpace := fun c => c == ' '

/-- C1: For every pair of token lists `ref` and `hyp`, the triple
    (S, D, I) returned by the alignment `calcular_distancia_edicion`
    consists of non-negative integers (naturals by construction) whose
    sum `S + D + I` equals the classical unit-cost Levenshtein distance
    between `ref` and `hyp`. -/
theorem c1_sum_eq_levenshtein (ref hyp : List α) :
    (calcular_distancia_edicion ref hyp).sustituciones +
      (calcular_distancia_edicion ref hyp).eliminaciones +
      (calcular_distancia_edicion ref hyp).inserciones = levenshtein ref hyp := by
  have h := (backtrack_invariant ref hyp (ref.length + hyp.length)
    ref.length hyp.length le_rfl).2.1
  rw [dp_eq_levenshtein] at h
  simpa [calcular_distancia_edicion] using h

/-- C8: For every pair of token lists, the S/D/I decomposition returned
    by the backtracking of `calcular_distancia_edicion` is exactly the
    move count of the unique walk prescribed by the spec's fixed priority
    order: from `(n, m)` down to `(0, 0)`, a match when the tokens are
    equal, otherwise substitution when `table[i][j] == table[i-1][j-1]+1`,
    else deletion (along the reference) when
    `table[i][j] == table[i-1][j]+1`, else insertion (along the
    hypothesis) when `table[i][j] == table[i][j-1]+1`. -/
theorem c8_priority_order (ref hyp : List α) :
    ∃ p, SpecPath ref hyp ref.length hyp.length p ∧
      (∀ q, SpecPath ref hyp ref.length hyp.length q → q = p) ∧
      calcular_distancia_edicion ref hyp =
        ⟨p.count BMove.subst, p.count BMove.del, p.count BMove.ins, false⟩ := by
  obtain ⟨p, hp, hb⟩ := backtrack_follows_specPath ref hyp
    (ref.length + hyp.length) ref.length hyp.length le_rfl
  exact ⟨p, hp, fun q hq => specPath_unique ref hyp hq hp, by
    simpa [calcular_distancia_edicion] using hb⟩

/-- C9: For every pair of token lists, the backtracking loop of
    `calcular_distancia_edicion` terminates by reaching `i = 0` and
    `j = 0` through the four classified moves; the final `else: break`
    fallback branch is never taken (from any start cell, in particular
    from `(n, m)`). -/
theorem c9_break_unreachable (ref hyp : List α) :
    (calcular_distancia_edicion ref hyp).broke = false ∧
      ∀ i j : Nat, (backtrack ref hyp i j).broke = false := by
  constructor
  · simpa [calcular_distancia_edicion] using
      (backtrack_invariant ref hyp (ref.length + hyp.length)
        ref.length hyp.length le_rfl).1
  · intro i j
    exact (backtrack_invariant ref hyp (i + j) i j le_rfl).1

/-- C10: For every pair of token lists, the counts returned by
    `calcular_distancia_edicion` satisfy
    `D - I = len(ref) - len(hyp)`: the deletion/insertion imbalance
    accounts exactly for the length difference. -/
theorem c10_del_ins_imbalance (ref hyp : List α) :
    ((calcular_distancia_edicion ref hyp).eliminaciones : Int) -
      ((calcular_distancia_edicion ref hyp).inserciones : Int) =
      (ref.length : Int) - (hyp.length : Int) := by
  simpa [calcular_distancia_edicion] using
    (backtrack_invariant ref hyp (ref.length + hyp.length)
      ref.length hyp.length le_rfl).2.2

/-- Shared evaluation helper: the scorer on two transcripts whose
    normalized token sequences are both empty. -/
theorem calcular_wer_both_empty (U : UnicodeModel) (referencia hipotesis : List Char)
    (h1 : splitWords U.isSpace (normalizar_texto U referencia) = [])
    (h2 : splitWords U.isSpace (normalizar_texto U hipotesis) = []) :
    calcular_wer U referencia hipotesis = ⟨PyFloat.finite 0, 0, 0, 0, 0, 0, 0, 0⟩ := by
  simp [calcular_wer, h1, h2, calcular_distancia_edicion, backtrack_zero_zero]

/-- C4: For every reference/hypothesis pair whose reference token
    sequence is non-empty (N > 0), `calcular_wer` returns
    `wer = (S + D + I) / N` and `accuracy = max(0, 1 - wer)`; the WER is
    non-negative and is never clamped (the witness exhibits `wer = 2.0`
    for a one-token reference against a three-token hypothesis). -/
theorem c4_scorer_formula (U : UnicodeModel) (referencia hipotesis : List Char)
    (h : splitWords U.isSpace (normalizar_texto U referencia) ≠ []) :
    (calcular_wer U referencia hipotesis).wer =
      PyFloat.finite (((calcular_wer U referencia hipotesis).total_errores : ℚ) /
        ((calcular_wer U referencia hipotesis).palabras_referencia : ℚ)) ∧
    (calcular_wer U referencia hipotesis).accuracy =
      max 0 (1 - ((calcular_wer U referencia hipotesis).total_errores : ℚ) /
        ((calcular_wer U referencia hipotesis).palabras_referencia : ℚ)) ∧
    PyFloat.NonNeg (calcular_wer U referencia hipotesis).wer := by
  have hN : (splitWords U.isSpace (normalizar_texto U referencia)).length ≠ 0 := by
    simpa [List.length_eq_zero] using h
  refine ⟨?_, ?_, ?_⟩
  · simp only [calcular_wer, if_neg hN]
  · simp only [calcular_wer, if_neg hN]
  · simp only [calcular_wer, if_neg hN, PyFloat.NonNeg]
    positivity

/-- Witness for C4 at a concrete input: reference `"a"` against
    hypothesis `"a b c"` has a non-empty reference token sequence, the
    formulas hold, and the WER value is exactly `2.0 > 1`. -/
theorem c4_witness :
    (splitWords plainModel.isSpace (normalizar_texto plainModel ['a']) ≠ []) ∧
    ((calcular_wer plainModel ['a'] ['a', ' ', 'b', ' ', 'c']).wer =
        PyFloat.finite (((calcular_wer plainModel ['a'] ['a', ' ', 'b', ' ', 'c']).total_errores : ℚ) /
          ((calcular_wer plainModel ['a'] ['a', ' ', 'b', ' ', 'c']).palabras_referencia : ℚ)) ∧
      (calcular_wer plainModel ['a'] ['a', ' ', 'b', ' ', 'c']).accuracy =
        max 0 (1 - ((calcular_wer plainModel ['a'] ['a', ' ', 'b', ' ', 'c']).total_errores : ℚ) /
          ((calcular_wer plainModel ['a'] ['a', ' ', 'b', ' ', 'c']).palabras_referencia : ℚ)) ∧
      PyFloat.NonNeg (calcular_wer plainModel ['a'] ['a', ' ', 'b', ' ', 'c']).wer) ∧
    (calcular_wer plainModel ['a'] ['a', ' ', 'b', ' ', 'c']).wer = PyFloat.finite 2 := by
  refine ⟨by decide, c4_scorer_formula plainModel ['a'] ['a', ' ', 'b', ' ', 'c'] (by decide), ?_⟩
  have h1 : splitWords plainModel.isSpace (normalizar_texto plainModel ['a']) = [['a']] := rfl
  have h2 : splitWords plainModel.isSpace
      (normalizar_texto plainModel ['a', ' ', 'b', ' ', 'c']) = [['a'], ['b'], ['c']] := rfl
  have h3 : calcular_distancia_edicion ([['a']] : List (List Char)) [['a'], ['b'], ['c']] =
      ⟨0, 0, 2, false⟩ := by
    simp [calcular_distancia_edicion, backtrack, dp]
  simp [calcular_wer, h1, h2, h3]

/-- C5: When the reference token sequence is empty (N = 0) and the
    hypothesis token sequence is non-empty, `calcular_wer` (a total
    function — it never raises) returns an infinite WER and accuracy 0. -/
theorem c5_degenerate_reference (U : UnicodeModel) (referencia hipotesis : List Char)
    (h1 : splitWords U.isSpace (normalizar_texto U referencia) = [])
    (h2 : splitWords U.isSpace (normalizar_texto U hipotesis) ≠ []) :
    (calcular_wer U referencia hipotesis).wer = PyFloat.inf ∧
    (calcular_wer U referencia hipotesis).accuracy = 0 := by
  have hlen : 0 < (splitWords U.isSpace (normalizar_texto U hipotesis)).length :=
    List.length_pos.mpr h2
  simp [calcular_wer, h1, hlen]

/-- Witness for C5 at a concrete input: empty reference, hypothesis
    `"a"`. -/
theorem c5_witness :
    (splitWords plainModel.isSpace (normalizar_texto plainModel []) = []) ∧
    (splitWords plainModel.isSpace (normalizar_texto plainModel ['a']) ≠ []) ∧
    ((calcular_wer plainModel [] ['a']).wer = PyFloat.inf ∧
      (calcular_wer plainModel [] ['a']).accuracy = 0) :=
  ⟨rfl, by decide, c5_degenerate_reference plainModel [] ['a'] rfl (by decide)⟩

/-- C2, counterexample: on an empty reference and an empty hypothesis
    the scorer returns `wer = 0.0` but `accuracy = 0.0`, not the
    accuracy 1 stated by the claim. -/
theorem c2_counterexample :
    (calcular_wer plainModel [] []).wer = PyFloat.finite 0 ∧
    (calcular_wer plainModel [] []).accuracy = 0 ∧
    (calcular_wer plainModel [] []).accuracy ≠ 1 := by
  have h := calcular_wer_both_empty plainModel [] [] rfl rfl
  rw [h]
  refine ⟨rfl, rfl, by norm_num⟩

/-- C2, amended: when both the reference and the hypothesis token
    sequences are empty, `calcular_wer` returns `wer = 0` and
    `accuracy = 0` (the `N == 0` branch always sets accuracy to 0.0). -/
theorem c2_amended_empty_empty (U : UnicodeModel) (referencia hipotesis : List Char)
    (h1 : splitWords U.isSpace (normalizar_texto U referencia) = [])
    (h2 : splitWords U.isSpace (normalizar_texto U hipotesis) = []) :
    (calcular_wer U referencia hipotesis).wer = PyFloat.finite 0 ∧
    (calcular_wer U referencia hipotesis).accuracy = 0 := by
  rw [calcular_wer_both_empty U referencia hipotesis h1 h2]
  exact ⟨rfl, rfl⟩

/-- Witness for the amended C2 at the concrete input of two empty
    transcripts. -/
theorem c2_witness :
    (splitWords plainModel.isSpace (normalizar_texto plainModel []) = []) ∧
    ((calcular_wer plainModel [] []).wer = PyFloat.finite 0 ∧
      (calcular_wer plainModel [] []).accuracy = 0) :=
  ⟨rfl, c2_amended_empty_empty plainModel [] [] rfl rfl⟩

/-- Per-pair metrics of the pairs the aggregator processes: both lists
    truncated to the shorter length, zipped in order, and scored. -/
def microPairs (U : UnicodeModel) (tm th : List (List Char)) : List WerResult :=
  ((tm.take (min tm.length th.length)).zip (th.take (min tm.length th.length))).map
    (fun p => calcular_wer U p.1 p.2)

/-- Pooled reference-word count `N_total` of the processed pairs. -/
def microN (U : UnicodeModel) (tm th : List (List Char)) : Nat :=
  ((microPairs U tm th).map (fun r => r.palabras_referencia)).sum

/-- Pooled error count `S_total + D_total + I_total` of the processed
    pairs. -/
def microErr (U : UnicodeModel) (tm th : List (List Char)) : Nat :=
  ((microPairs U tm th).map (fun r => r.sustituciones)).sum +
    ((microPairs U tm th).map (fun r => r.eliminaciones)).sum +
    ((microPairs U tm th).map (fun r => r.inserciones)).sum

/-- The micro/total WER the code computes: the pooled ratio when
    `N_total > 0` and the infinite sentinel whenever `N_total = 0`. -/
def microWer (U : UnicodeModel) (tm th : List (List Char)) : PyFloat :=
  if 0 < microN U tm th then
    PyFloat.finite ((microErr U tm th : ℚ) / (microN U tm th : ℚ))
  else PyFloat.inf

/-- Master description of one aggregator run with at least one processed
    pair. -/
theorem calcular_wer_total_some (U : UnicodeModel) (tm th : List (List Char))
    (h : 0 < min tm.length th.length) :
    calcular_wer_total U tm th =
      { advertencia := if tm.length ≠ th.length then some (tm.length, th.length) else none
        resultado := some
          { wer_promedio := pyMeanWer ((microPairs U tm th).map (fun r => r.wer))
            wer_total := microWer U tm th
            accuracy_promedio := ((microPairs U tm th).map (fun r => r.accuracy)).sum /
              ((microPairs U tm th).length : ℚ)
            accuracy_total := pyAccuracyOf (microWer U tm th)
            total_sustituciones := ((microPairs U tm th).map (fun r => r.sustituciones)).sum
            total_eliminaciones := ((microPairs U tm th).map (fun r => r.eliminaciones)).sum
            total_inserciones := ((microPairs U tm th).map (fun r => r.inserciones)).sum
            total_errores := ((microPairs U tm th).map (fun r => r.sustituciones)).sum +
              ((microPairs U tm th).map (fun r => r.eliminaciones)).sum +
              ((microPairs U tm th).map (fun r => r.inserciones)).sum
            total_palabras_referencia := microN U tm th
            num_transcripciones := (microPairs U tm th).length
            resultados_individuales := microPairs U tm th } } := by
  by_cases hlen : tm.length = th.length
  · have h1 : ¬ (tm.length ≠ th.length) := by omega
    have hmin : min tm.length th.length = tm.length := by omega
    have htm : tm.take (min tm.length th.length) = tm := by
      rw [hmin, List.take_length]
    have hth : th.take (min tm.length th.length) = th := by
      have : min tm.length th.length = th.length := by omega
      rw [this, List.take_length]
    have hne : tm ≠ [] := by
      apply List.ne_nil_of_length_pos
      omega
    simp only [calcular_wer_total, microWer, microErr, microN, microPairs,
      if_neg h1, if_neg hne, htm, hth]
  · have hne : tm.take (min tm.length th.length) ≠ [] := by
      apply List.ne_nil_of_length_pos
      rw [List.length_take]
      omega
    simp only [calcular_wer_total, microWer, microErr, microN, microPairs,
      if_pos hlen, if_neg hne]

/-- C3, counterexample: on the pair of one-element lists `["?"]`,
    `["?"]` one pair is processed, `N_total = 0` and the error total is
    0, yet the aggregator reports the infinite sentinel instead of the 0
    required by the claim when `N_total = 0` with no errors. -/
theorem c3_counterexample :
    ((calcular_wer_total plainModel [['?']] [['?']]).resultado.map
      (fun r => r.total_palabras_referencia)) = some 0 ∧
    ((calcular_wer_total plainModel [['?']] [['?']]).resultado.map
      (fun r => r.total_errores)) = some 0 ∧
    ((calcular_wer_total plainModel [['?']] [['?']]).resultado.map
      (fun r => r.wer_total)) = some PyFloat.inf := by
  have hq : calcular_wer plainModel ['?'] ['?'] = ⟨PyFloat.finite 0, 0, 0, 0, 0, 0, 0, 0⟩ :=
    calcular_wer_both_empty plainModel ['?'] ['?'] rfl rfl
  simp [calcular_wer_total, hq]

/-- C3, amended: whenever at least one pair is processed,
    `wer_total = (S_total + D_total + I_total) / N_total` when
    `N_total > 0` and the infinite sentinel whenever `N_total = 0`
    (regardless of whether errors exist), and
    `accuracy_total = max(0, 1 - wer_total)` (0 when the WER is
    infinite). -/
theorem c3_amended_micro_total (U : UnicodeModel) (tm th : List (List Char))
    (h : 0 < min tm.length th.length) :
    ((calcular_wer_total U tm th).resultado.map (fun r => r.wer_total)) =
      some (microWer U tm th) ∧
    ((calcular_wer_total U tm th).resultado.map (fun r => r.accuracy_total)) =
      some (pyAccuracyOf (microWer U tm th)) := by
  rw [calcular_wer_total_some U tm th h]
  exact ⟨rfl, rfl⟩

/-- Witness for the amended C3 at a concrete input: two one-element
    lists. -/
theorem c3_witness :
    (0 < min ([['a']] : List (List Char)).length ([['a']] : List (List Char)).length) ∧
    (((calcular_wer_total plainModel [['a']] [['a']]).resultado.map (fun r => r.wer_total)) =
      some (microWer plainModel [['a']] [['a']]) ∧
    ((calcular_wer_total plainModel [['a']] [['a']]).resultado.map (fun r => r.accuracy_total)) =
      some (pyAccuracyOf (microWer plainModel [['a']] [['a']]))) :=
  ⟨by decide, c3_amended_micro_total plainModel [['a']] [['a']] (by decide)⟩

/-- C6: when the two transcription lists have different lengths, the
    aggregator records the warning naming both original lengths,
    processes exactly `min(len(manual), len(openai))` pairs, and the
    per-pair results are those of the order-preserving truncation of
    both lists to the shorter length. -/
theorem c6_length_mismatch (U : UnicodeModel) (tm th : List (List Char))
    (h : tm.length ≠ th.length) :
    (calcular_wer_total U tm th).advertencia = some (tm.length, th.length) ∧
    procesados (calcular_wer_total U tm th) = min tm.length th.length ∧
    ((calcular_wer_total U tm th).resultado.map (fun r => r.resultados_individuales)) =
      (if 0 < min tm.length th.length then some (microPairs U tm th) else none) := by
  by_cases hmin : 0 < min tm.length th.length
  · rw [calcular_wer_total_some U tm th hmin]
    refine ⟨by simp [h], ?_, by simp [hmin]⟩
    simp only [procesados, microPairs, List.length_map, List.length_zip, List.length_take]
    omega
  · have hz : min tm.length th.length = 0 := by omega
    have htm : tm.take (min tm.length th.length) = [] := by
      rw [hz, List.take_zero]
    simp only [calcular_wer_total, if_pos h, htm, if_pos rfl]
    refine ⟨rfl, by simp [procesados, hz], by simp [hz]⟩

/-- Witness for C6 at a concrete input: five references against three
    hypotheses. -/
theorem c6_witness :
    (([['a'], ['a'], ['a'], ['a'], ['a']] : List (List Char)).length ≠
      ([['a'], ['a'], ['a']] : List (List Char)).length) ∧
    ((calcular_wer_total plainModel [['a'], ['a'], ['a'], ['a'], ['a']]
        [['a'], ['a'], ['a']]).advertencia = some (5, 3) ∧
      procesados (calcular_wer_total plainModel [['a'], ['a'], ['a'], ['a'], ['a']]
        [['a'], ['a'], ['a']]) = min 5 3 ∧
      ((calcular_wer_total plainModel [['a'], ['a'], ['a'], ['a'], ['a']]
          [['a'], ['a'], ['a']]).resultado.map (fun r => r.resultados_individuales)) =
        (if 0 < min 5 3 then
          some (microPairs plainModel [['a'], ['a'], ['a'], ['a'], ['a']] [['a'], ['a'], ['a']])
         else none)) :=
  ⟨by decide, c6_length_mismatch plainModel _ _ (by decide)⟩

section NormalizerLemmas

variable {isSp : Char → Bool}

theorem collapseSpaces_cons_neg {d : Char} (hd : isSp d = false) (rest : List Char) :
    collapseSpaces isSp (d :: rest) = d :: collapseSpaces isSp rest := by
  simp [collapseSpaces, hd]

/-- Output shape invariant of the whitespace collapse: every whitespace
    character is a plain space and no two adjacent characters are both
    whitespace. -/
def Collapsed (isSp : Char → Bool) (s : List Char) : Prop :=
  (∀ c ∈ s, isSp c = true → c = ' ') ∧
    s.Chain' (fun a b => ¬(isSp a = true ∧ isSp b = true))

theorem mem_collapseSpaces {c : Char} :
    ∀ {s : List Char}, c ∈ collapseSpaces isSp s → c = ' ' ∨ (c ∈ s ∧ isSp c = false) := by
  intro s
  induction s with
  | nil => simp [collapseSpaces]
  | cons a cs ih =>
    intro hc
    by_cases hsp : isSp a = true
    · cases cs with
      | nil =>
        simp [collapseSpaces, hsp] at hc
        exact Or.inl hc
      | cons d rest =>
        by_cases hd : isSp d = true
        · rw [show collapseSpaces isSp (a :: d :: rest) = collapseSpaces isSp (d :: rest) by
            simp [collapseSpaces, hsp, hd]] at hc
          rcases ih hc with h | ⟨hmem, hns⟩
          · exact Or.inl h
          · exact Or.inr ⟨List.mem_cons_of_mem a hmem, hns⟩
        · rw [show collapseSpaces isSp (a :: d :: rest) = ' ' :: collapseSpaces isSp (d :: rest) by
            simp [collapseSpaces, hsp, hd]] at hc
          rcases List.mem_cons.mp hc with h | h
          · exact Or.inl h
          · rcases ih h with h2 | ⟨hmem, hns⟩
            · exact Or.inl h2
            · exact Or.inr ⟨List.mem_cons_of_mem a hmem, hns⟩
    · rw [show collapseSpaces isSp (a :: cs) = a :: collapseSpaces isSp cs by
        simp [collapseSpaces, hsp]] at hc
      rcases List.mem_cons.mp hc with h | h
      · subst h
        exact Or.inr ⟨List.mem_cons_self _ _, by simpa using hsp⟩
      · rcases ih h with h2 | ⟨hmem, hns⟩
        · exact Or.inl h2
        · exact Or.inr ⟨List.mem_cons_of_mem a hmem, hns⟩

theorem chain'_collapseSpaces :
    ∀ s : List Char,
      (collapseSpaces isSp s).Chain' (fun a b => ¬(isSp a = true ∧ isSp b = true)) := by
  intro s
  induction s with
  | nil => simp [collapseSpaces]
  | cons a cs ih =>
    by_cases hsp : isSp a = true
    · cases cs with
      | nil => simp [collapseSpaces, hsp]
      | cons d rest =>
        by_cases hd : isSp d = true
        · rw [show collapseSpaces isSp (a :: d :: rest) = collapseSpaces isSp (d :: rest) by
            simp [collapseSpaces, hsp, hd]]
          exact ih
        · rw [show collapseSpaces isSp (a :: d :: rest) = ' ' :: collapseSpaces isSp (d :: rest) by
            simp [collapseSpaces, hsp, hd]]
          rw [List.chain'_cons']
          refine ⟨?_, ih⟩
          intro b hb
          rw [collapseSpaces_cons_neg (by simpa using hd)] at hb
          simp only [List.head?_cons, Option.mem_def, Option.some.injEq] at hb
          subst hb
          simp [hd]
    · rw [show collapseSpaces isSp (a :: cs) = a :: collapseSpaces isSp cs by
        simp [collapseSpaces, hsp]]
      rw [List.chain'_cons']
      refine ⟨?_, ih⟩
      intro b hb
      simp [hsp]

theorem collapsed_collapseSpaces (s : List Char) : Collapsed isSp (collapseSpaces isSp s) := by
  constructor
  · intro c hc hspc
    rcases mem_collapseSpaces hc with h | ⟨_, hns⟩
    · exact h
    · rw [hspc] at hns
      cases hns
  · exact chain'_collapseSpaces s

theorem collapsed_tail {a : Char} {cs : List Char} (h : Collapsed isSp (a :: cs)) :
    Collapsed isSp cs :=
  ⟨fun c hc => h.1 c (List.mem_cons_of_mem a hc), h.2.tail⟩

theorem collapseSpaces_eq_self :
    ∀ {s : List Char}, Collapsed isSp s → collapseSpaces isSp s = s := by
  intro s
  induction s with
  | nil => intro _; rfl
  | cons a cs ih =>
    intro h
    by_cases hsp : isSp a = true
    · have ha : a = ' ' := h.1 a (List.mem_cons_self _ _) hsp
      cases cs with
      | nil =>
        simp [collapseSpaces, hsp, ha]
      | cons d rest =>
        have hR := (List.chain'_cons.mp h.2).1
        have hd : isSp d = false := by
          by_cases hdt : isSp d = true
          · exact absurd ⟨hsp, hdt⟩ hR
          · simpa using hdt
        rw [show collapseSpaces isSp (a :: d :: rest) = ' ' :: collapseSpaces isSp (d :: rest) by
          simp [collapseSpaces, hsp, hd]]
        rw [ih (collapsed_tail h), ha]
    · rw [show collapseSpaces isSp (a :: cs) = a :: collapseSpaces isSp cs by
        simp [collapseSpaces, hsp]]
      rw [ih (collapsed_tail h)]

theorem chain'_dropWhile {R : Char → Char → Prop} {p : Char → Bool} :
    ∀ {l : List Char}, l.Chain' R → (l.dropWhile p).Chain' R := by
  intro l
  induction l with
  | nil => intro h; simp
  | cons a cs ih =>
    intro h
    rw [List.dropWhile_cons]
    split
    · exact ih h.tail
    · exact h

theorem collapsed_dropWhile {p : Char → Bool} {s : List Char} (h : Collapsed isSp s) :
    Collapsed isSp (s.dropWhile p) :=
  ⟨fun c hc => h.1 c ((List.dropWhile_sublist _).subset hc), chain'_dropWhile h.2⟩

theorem collapsed_reverse {s : List Char} (h : Collapsed isSp s) :
    Collapsed isSp s.reverse := by
  constructor
  · intro c hc
    exact h.1 c (List.mem_reverse.mp hc)
  · rw [List.chain'_reverse]
    exact h.2.imp (fun a b hab => by tauto)

theorem collapsed_stripEnds {s : List Char} (h : Collapsed isSp s) :
    Collapsed isSp (stripEnds isSp s) := by
  unfold stripEnds
  exact collapsed_reverse (collapsed_dropWhile (collapsed_reverse (collapsed_dropWhile h)))

theorem dropWhile_dropWhile (p : Char → Bool) :
    ∀ l : List Char, (l.dropWhile p).dropWhile p = l.dropWhile p := by
  intro l
  induction l with
  | nil => rfl
  | cons a cs ih =>
    rw [List.dropWhile_cons]
    split
    · exact ih
    · rw [List.dropWhile_cons]
      simp_all

theorem dropWhile_head_not (p : Char → Bool) :
    ∀ (l : List Char) (c : Char), (l.dropWhile p).head? = some c → p c = false := by
  intro l
  induction l with
  | nil => intro c hc; simp at hc
  | cons a cs ih =>
    intro c hc
    rw [List.dropWhile_cons] at hc
    by_cases hp : p a = true
    · rw [if_pos hp] at hc
      exact ih c hc
    · rw [if_neg hp] at hc
      simp only [List.head?_cons, Option.some.injEq] at hc
      subst hc
      simpa using hp

/-- Key step of strip idempotence: if every possible head of `u`
    fails `p`, then the back-side trim of `u` is already front-trimmed
    after reversal. -/
theorem dropWhile_reverse_trimmed (p : Char → Bool) (u : List Char)
    (hu : ∀ c, u.head? = some c → p c = false) :
    ((u.reverse.dropWhile p).reverse).dropWhile p = (u.reverse.dropWhile p).reverse := by
  cases hveq : (u.reverse.dropWhile p).reverse with
  | nil => simp [hveq]
  | cons c rest =>
    have hdecomp : u.reverse.takeWhile p ++ u.reverse.dropWhile p = u.reverse :=
      List.takeWhile_append_dropWhile p u.reverse
    have hu2 : u = (u.reverse.dropWhile p).reverse ++ (u.reverse.takeWhile p).reverse := by
      have := congrArg List.reverse hdecomp
      rw [List.reverse_append, List.reverse_reverse] at this
      exact this.symm
    rw [hveq] at hu2
    have hhead : u.head? = some c := by
      rw [hu2]
      rfl
    have hc : p c = false := hu c hhead
    rw [List.dropWhile_cons, if_neg (by simp [hc])]

theorem stripEnds_idem (p : Char → Bool) (s : List Char) :
    stripEnds p (stripEnds p s) = stripEnds p s := by
  unfold stripEnds
  have hA : ∀ c, (s.dropWhile p).head? = some c → p c = false :=
    dropWhile_head_not p s
  rw [dropWhile_reverse_trimmed p (s.dropWhile p) hA]
  rw [List.reverse_reverse, dropWhile_dropWhile]

theorem mem_strExpand {f : Char → List Char} {c : Char} :
    ∀ {s : List Char}, c ∈ strExpand f s → ∃ a, a ∈ s ∧ c ∈ f a := by
  intro s
  induction s with
  | nil => intro h; simp [strExpand] at h
  | cons a cs ih =>
    intro h
    rw [show strExpand f (a :: cs) = f a ++ strExpand f cs from rfl] at h
    rcases List.mem_append.mp h with h | h
    · exact ⟨a, List.mem_cons_self _ _, h⟩
    · obtain ⟨b, hb, hcb⟩ := ih h
      exact ⟨b, List.mem_cons_of_mem a hb, hcb⟩

theorem strExpand_eq_self {f : Char → List Char} :
    ∀ {s : List Char}, (∀ c ∈ s, f c = [c]) → strExpand f s = s := by
  intro s
  induction s with
  | nil => intro _; rfl
  | cons a cs ih =>
    intro h
    rw [show strExpand f (a :: cs) = f a ++ strExpand f cs from rfl]
    rw [h a (List.mem_cons_self _ _), ih (fun c hc => h c (List.mem_cons_of_mem a hc))]
    rfl

theorem map_eq_self_of {β : Type} {f : β → β} :
    ∀ {l : List β}, (∀ c ∈ l, f c = c) → l.map f = l := by
  intro l
  induction l with
  | nil => intro _; rfl
  | cons a cs ih =>
    intro h
    rw [List.map_cons, h a (List.mem_cons_self _ _),
      ih (fun c hc => h c (List.mem_cons_of_mem a hc))]

theorem mem_stripEnds {isSp : Char → Bool} {c : Char} {s : List Char}
    (h : c ∈ stripEnds isSp s) : c ∈ s := by
  unfold stripEnds at h
  rw [List.mem_reverse] at h
  have h2 := (List.dropWhile_sublist _).subset h
  rw [List.mem_reverse] at h2
  exact (List.dropWhile_sublist _).subset h2

/-- Every character of a normalized text is either the space separator
    or a word character produced by the lowercase/NFD pipeline that is
    not a combining mark and not whitespace. -/
theorem mem_normalizar_texto (U : UnicodeModel) (s : List Char) :
    ∀ c ∈ normalizar_texto U s,
      c = ' ' ∨ ((∃ a b, b ∈ U.lowerChar a ∧ c ∈ U.nfdChar b) ∧ U.isMn c = false ∧
        U.isWord c = true ∧ U.isSpace c = false) := by
  intro c hc
  unfold normalizar_texto at hc
  have h5 : c ∈ collapseSpaces U.isSpace
      (((strExpand U.nfdChar (strExpand U.lowerChar s)).filter
        (fun c => !U.isMn c)).map
          (fun c => if U.isWord c || U.isSpace c then c else ' ')) := mem_stripEnds hc
  rcases mem_collapseSpaces h5 with h | ⟨h4, hnsp⟩
  · exact Or.inl h
  · obtain ⟨d, hd3, hdc⟩ := List.mem_map.mp h4
    by_cases hw : U.isWord d || U.isSpace d
    · rw [if_pos hw] at hdc
      subst hdc
      right
      have hword : U.isWord d = true := by
        rcases Bool.or_eq_true_iff.mp hw with h | h
        · exact h
        · rw [h] at hnsp
          cases hnsp
      have h3 := List.mem_filter.mp hd3
      have hmn : U.isMn d = false := by
        have := h3.2
        simpa using this
      obtain ⟨b, hb, hcb⟩ := mem_strExpand h3.1
      obtain ⟨a, ha, hba⟩ := mem_strExpand hb
      exact ⟨⟨a, b, hba, hcb⟩, hmn, hword, hnsp⟩
    · rw [if_neg hw] at hdc
      exact Or.inl hdc.symm

/-- The normalizer's output satisfies the collapsed-whitespace shape
    invariant. -/
theorem collapsed_normalizar_texto (U : UnicodeModel) (s : List Char) :
    Collapsed U.isSpace (normalizar_texto U s) := by
  unfold normalizar_texto
  exact collapsed_stripEnds (collapsed_collapseSpaces _)

/-- Stripping the normalizer's output again changes nothing. -/
theorem stripEnds_normalizar_texto (U : UnicodeModel) (s : List Char) :
    stripEnds U.isSpace (normalizar_texto U s) = normalizar_texto U s := by
  unfold normalizar_texto
  exact stripEnds_idem _ _

/-- C7: the normalizer `normalizar_texto` is idempotent.  The Unicode
    tables enter as hypotheses, each a property guaranteed by the Unicode
    standard: a character produced by NFD-decomposing a lowercased
    character is itself fixed by lowercasing (`hlow`) and fully
    decomposed (`hnfd`), and the space character is fixed by both
    mappings, is not a combining mark, and is whitespace. -/
theorem c7_normalize_idempotent (U : UnicodeModel)
    (hlow : ∀ a b c : Char, b ∈ U.lowerChar a → c ∈ U.nfdChar b → U.lowerChar c = [c])
    (hnfd : ∀ a b c : Char, b ∈ U.lowerChar a → c ∈ U.nfdChar b → U.nfdChar c = [c])
    (hsp_low : U.lowerChar ' ' = [' '])
    (hsp_nfd : U.nfdChar ' ' = [' '])
    (hsp_mn : U.isMn ' ' = false)
    (hsp_sp : U.isSpace ' ' = true)
    (s : List Char) :
    normalizar_texto U (normalizar_texto U s) = normalizar_texto U s := by
  have hmem := mem_normalizar_texto U s
  have e1 : strExpand U.lowerChar (normalizar_texto U s) = normalizar_texto U s := by
    apply strExpand_eq_self
    intro c hc
    rcases hmem c hc with rfl | ⟨⟨a, b, hba, hcb⟩, _, _, _⟩
    · exact hsp_low
    · exact hlow a b c hba hcb
  have e2 : strExpand U.nfdChar (normalizar_texto U s) = normalizar_texto U s := by
    apply strExpand_eq_self
    intro c hc
    rcases hmem c hc with rfl | ⟨⟨a, b, hba, hcb⟩, _, _, _⟩
    · exact hsp_nfd
    · exact hnfd a b c hba hcb
  have e3 : (normalizar_texto U s).filter (fun c => !U.isMn c) = normalizar_texto U s := by
    rw [List.filter_eq_self]
    intro c hc
    rcases hmem c hc with rfl | ⟨_, hmn, _, _⟩
    · simp [hsp_mn]
    · simp [hmn]
  have e4 : (normalizar_texto U s).map
      (fun c => if U.isWord c || U.isSpace c then c else ' ') = normalizar_texto U s := by
    apply map_eq_self_of
    intro c hc
    rcases hmem c hc with rfl | ⟨_, _, hword, _⟩
    · rw [if_pos (by simp [hsp_sp])]
    · rw [if_pos (by simp [hword])]
  have e5 : collapseSpaces U.isSpace (normalizar_texto U s) = normalizar_texto U s :=
    collapseSpaces_eq_self (collapsed_normalizar_texto U s)
  have e6 := stripEnds_normalizar_texto U s
  calc normalizar_texto U (normalizar_texto U s)
      = stripEnds U.isSpace (collapseSpaces U.isSpace
          (((strExpand U.nfdChar (strExpand U.lowerChar (normalizar_texto U s))).filter
            (fun c => !U.isMn c)).map
              (fun c => if U.isWord c || U.isSpace c then c else ' '))) := rfl
    _ = normalizar_texto U s := by rw [e1, e2, e3, e4, e5, e6]

/-- Witness for C7: a concrete Unicode model satisfying all the
    hypotheses, applied to a concrete string with punctuation and
    repeated whitespace. -/
theorem c7_witness :
    normalizar_texto plainModel
      (normalizar_texto plainModel ['a', ' ', ' ', 'b', '!', 'c']) =
      normalizar_texto plainModel ['a', ' ', ' ', 'b', '!', 'c'] :=
  c7_normalize_idempotent plainModel
    (fun a b c hb hc => by
      simp only [plainModel, List.mem_singleton] at hb hc
      subst hb; subst hc; rfl)
    (fun a b c hb hc => by
      simp only [plainModel, List.mem_singleton] at hb hc
      subst hb; subst hc; rfl)
    rfl rfl rfl rfl
    ['a', ' ', ' ', 'b', '!', 'c']

end NormalizerLemmas

end CallCenterWer
